import Mathlib

/-!
Verification of the note-editing core of `src/src/gui/editors/PianoRoll.cpp`.

The C++ code is shallowly embedded: machine `int`s become `Int` (no overflow is
exercised by the properties below), the note vector becomes `List Note`, and the
relevant member functions of `PianoRoll` become pure functions from their input
state to the updated note list.  C++ integer division/modulus truncate toward
zero, so they are rendered with `Int.tdiv` / `Int.tmod`.
-/

namespace PianoRoll

/-- `KeysPerOctave` from the headers (not under `src/`); the source comments at
`PianoRoll.cpp:96` record it as 12. -/
def KeysPerOctave : Int := 12

/-- Modelled from the spec: `NumKeys` total across `NumOctaves` of
`KeysPerOctave` each (the defining header is not under `src/`); `NumOctaves`
is taken as 10.  Every property below only uses that `NumKeys` is a positive
multiple of `KeysPerOctave`. -/
def NumOctaves : Int := 10

/-- Total number of keys, `KeysPerOctave * NumOctaves`. -/
def NumKeys : Int := KeysPerOctave * NumOctaves

/-- A note of the pattern: current position/length/key, secondary properties,
selection flag and the old-state snapshot fields captured at gesture start
(`oldPos`/`oldLength`/`oldKey` in the source). -/
structure Note where
  pos : Int
  len : Int
  key : Int
  vol : Int
  pan : Int
  selected : Bool
  oldPos : Int
  oldLen : Int
  oldKey : Int
deriving DecidableEq

/-- The `m_action` state machine values used by the drag code. -/
inductive Action where
  | none
  | moveNote
  | resizeNote
  | resizeNoteEditArea
  | selectNotes
  | changeNoteProperty
deriving DecidableEq

/-- The offset quantization step of `dragNotes` (PianoRoll.cpp:2385):
`off_ticks = floor( off_ticks / quantization() ) * quantization()`.
Both operands are C++ `int`s, so the division inside `floor` is already the
truncating integer division and `floor` is the identity on its result. -/
def snap (tick granularity : Int) : Int :=
  tick.tdiv granularity * granularity

/-- The snap operation as the spec's words describe it: floor-division
`floor(tick / granularity) * granularity`, rounding toward negative
infinity also for negative ticks. -/
def snapSpecFloor (tick granularity : Int) : Int :=
  tick.fdiv granularity * granularity

/-- Parameters of `dragNotes` that stay fixed during the per-note loop. -/
structure DragParams where
  action : Action
  shift : Bool
  startedWithShift : Bool
  offTicks : Int
  offKey : Int

/-- One iteration of the note loop of `dragNotes` (PianoRoll.cpp:2411-2482),
threading the `shift_offset` / `shift_ref_pos` accumulator pair.  `pos` is
read before any mutation, exactly as the source captures
`const int pos = note->pos().getTicks()` first. -/
def dragStep (p : DragParams) (so ref : Int) (n : Note) :
    Note × Int × Int :=
  let pos := n.pos
  let n1 :=
    if p.action = Action.resizeNote ∧ p.shift = true then
      let shifted := n.oldPos + so
      let shifted := if shifted ≠ 0 ∧ pos = ref then shifted - p.offTicks else shifted
      { n with pos := shifted }
    else n
  if n.selected = true then
    if p.action = Action.moveNote ∧ ¬(p.shift = true ∧ p.startedWithShift = false) then
      let posTicks := max 0 (n.oldPos + p.offTicks)
      let keyNum := min (max 0 (n.oldKey + p.offKey)) NumKeys
      ({ n1 with pos := posTicks, key := keyNum }, so, ref)
    else if p.action = Action.resizeNote then
      let ticksNew := n.oldLen + p.offTicks
      if ticksNew ≤ 0 then
        ({ n1 with len := 1 }, so, ref)
      else if p.shift = true ∧ pos > ref then
        ({ n1 with len := ticksNew }, so + p.offTicks, pos)
      else
        ({ n1 with len := ticksNew }, so, ref)
    else if p.action = Action.moveNote ∧ (p.shift = true ∧ p.startedWithShift = false) then
      let ticksNew := n.oldLen + p.offTicks
      ({ n1 with len := if ticksNew ≤ 0 then 1 else ticksNew }, so, ref)
    else
      (n1, so, ref)
  else
    (n1, so, ref)

/-- The note loop of `dragNotes`, from start accumulators `so`/`ref`. -/
def dragLoop (p : DragParams) (so ref : Int) : List Note → List Note
  | [] => []
  | n :: rest =>
    let r := dragStep p so ref n
    r.1 :: dragLoop p r.2.1 r.2.2 rest

/-- Quantization and shared boundary clamping of the tick offset in
`dragNotes` (PianoRoll.cpp:2382-2394): snap unless `alt` is held, then in the
Moving state (and not quick-resize) clamp so the leftmost selected note's new
position stays nonnegative. -/
def dragOffTicks (action : Action) (startedWithShift : Bool) (bLeft q : Int)
    (offTicks0 : Int) (alt shift : Bool) : Int :=
  let offT1 := if alt = false then snap offTicks0 q else offTicks0
  if action = Action.moveNote ∧ ¬(shift = true ∧ startedWithShift = false) then
    if bLeft + offT1 < 0 then offT1 + (0 - (offT1 + bLeft)) else offT1
  else offT1

/-- Shared boundary clamping of the key offset in `dragNotes`
(PianoRoll.cpp:2395-2404), written exactly as the source computes it
(including the top-boundary arithmetic as written there). -/
def dragOffKey (action : Action) (startedWithShift : Bool) (bTop bBottom : Int)
    (offKey0 : Int) (shift : Bool) : Int :=
  if action = Action.moveNote ∧ ¬(shift = true ∧ startedWithShift = false) then
    let k1 := if bTop + offKey0 > NumKeys
              then offKey0 - (NumKeys - (bTop + offKey0)) else offKey0
    if bBottom + k1 < 0 then k1 + (0 - (k1 + bBottom)) else k1
  else offKey0

/-- `PianoRoll::dragNotes` (PianoRoll.cpp:2368-2486), from the point where the
pointer movement has been converted to the raw tick offset `offTicks0` and key
offset `offKey0` (pixel-to-tick conversion and mid-gesture scroll adjustment
are linear preprocessing of the two offsets and are not needed by any claim).
`bLeft`/`bTop`/`bBottom` are `m_moveBoundaryLeft/Top/Bottom`, `q` is
`quantization()`. -/
def dragNotes (action : Action) (startedWithShift : Bool)
    (bLeft bTop bBottom q : Int) (offTicks0 offKey0 : Int)
    (alt shift : Bool) (notes : List Note) : List Note :=
  dragLoop
    ⟨action, shift, startedWithShift,
      dragOffTicks action startedWithShift bLeft q offTicks0 alt shift,
      dragOffKey action startedWithShift bTop bBottom offKey0 shift⟩
    0 (-1) notes

/-- Default note used with `List.getD` in index-based statements. -/
def dNote : Note := ⟨0, 0, 0, 0, 0, false, 0, 0, 0⟩

/-- A sequence of `dragNotes` updates of one Moving-state gesture: the
per-gesture state (`m_startedWithShift`, boundary box, quantization) is fixed,
each update supplies its own offsets and alt/shift modifiers. -/
def dragUpdateSeq (startedWithShift : Bool) (bLeft bTop bBottom q : Int)
    (us : List (Int × Int × Bool × Bool)) (ns : List Note) : List Note :=
  us.foldl (fun acc u =>
    dragNotes Action.moveNote startedWithShift bLeft bTop bBottom q
      u.1 u.2.1 u.2.2.1 u.2.2.2 acc) ns

/-- The per-note body of the `computeSelectedNotes` loop (PianoRoll.cpp:1754-1788):
clear the flag unless additive, skip zero-length notes, treat negative lengths
as 4 for hit-testing, and toggle matched notes relative to their current
state. -/
def selApply (posStart posEnd keyStart keyEnd startKey : Int) (shift : Bool)
    (note : Note) : Note :=
  let note1 := if shift = false then { note with selected := false } else note
  if note1.len = 0 then note1
  else
    if note1.key - startKey + 1 > keyStart ∧ note1.key - startKey + 1 ≤ keyEnd ∧
        note1.pos + (if note1.len < 0 then 4 else note1.len) > posStart ∧
        note1.pos < posEnd then
      { note1 with selected := !(shift && note1.selected) }
    else note1

/-- `PianoRoll::computeSelectedNotes` (PianoRoll.cpp:1722-1791).  The selection
region fields `m_selectStartTick`, `m_selectedTick`, `m_selectStartKey`,
`m_selectedKeys` and the view field `m_startKey` are passed explicitly. -/
def computeSelectedNotes (selStartTick selTick selStartKey selKeys startKey : Int)
    (shift : Bool) (ns : List Note) : List Note :=
  if selStartTick = 0 ∧ selTick = 0 ∧ selStartKey = 0 ∧ selKeys = 0 then ns
  else
    let s0 := selStartTick
    let e0 := selStartTick + selTick
    let posStart := if s0 > e0 then e0 else s0
    let posEnd := if s0 > e0 then s0 else e0
    let ks0 := selStartKey - startKey + 1
    let ke0 := ks0 + selKeys
    let keyStart := if ks0 > ke0 then ke0 else ks0
    let keyEnd := if ks0 > ke0 then ks0 else ke0
    ns.map (selApply posStart posEnd keyStart keyEnd startKey shift)

/-- `PianoRoll::isSelection` (PianoRoll.cpp:827-842): any note selected? -/
def isSelection (ns : List Note) : Bool :=
  ns.any (fun n => n.selected)

/-- Modelled from the spec: `Note::setKey` (note.cpp is not under `src/`) —
an out-of-range key is "silently clamped" into `[0, NumKeys]` per the spec's
error-handling policy, matching the explicit clamp `dragNotes` performs. -/
def setKeyClamped (k : Int) : Int :=
  min (max 0 k) NumKeys

/-- `PianoRoll::shiftSemiTone` (PianoRoll.cpp:769-789): move all notes (or only
the selected ones when a selection exists) by `amount` semitones. -/
def shiftSemiTone (amount : Int) (ns : List Note) : List Note :=
  let useAll := !isSelection ns
  ns.map (fun n =>
    if useAll || n.selected then { n with key := setKeyClamped (n.key + amount) } else n)

/-- The loop of `PianoRoll::shiftPos` (PianoRoll.cpp:800-819): the first moved
note supplies `m_moveBoundaryLeft` and clamps the shared amount so its new
position is nonnegative; all later moved notes use the clamped amount. -/
def shiftPosLoop (useAll : Bool) (amount : Int) (first : Bool) :
    List Note → List Note
  | [] => []
  | n :: rest =>
    if n.selected || (useAll && decide (n.len > 0)) then
      let amount1 :=
        if first = true ∧ n.pos + amount < 0 then amount + (0 - (amount + n.pos)) else amount
      { n with pos := n.pos + amount1 } :: shiftPosLoop useAll amount1 false rest
    else
      n :: shiftPosLoop useAll amount first rest

/-- `PianoRoll::shiftPos` (PianoRoll.cpp:794-825). -/
def shiftPos (amount : Int) (ns : List Note) : List Note :=
  shiftPosLoop (!isSelection ns) amount true ns

/-- `PianoRoll::clearSelectedNotes` (PianoRoll.cpp:751-766). -/
def clearSelectedNotes (ns : List Note) : List Note :=
  ns.map (fun n => { n with selected := false })

/-- Modelled from the spec: `Pattern::addNote` (Pattern.cpp is not under
`src/`) — §4.1: "`addNote(note) -> handle`: inserts"; the embedding appends,
position order being re-established by `rearrangeAll` per the spec. -/
def addNote (n : Note) (ns : List Note) : List Note :=
  ns ++ [n]

/-- The paste loop of `PianoRoll::pasteNotes` (PianoRoll.cpp:3622-3667):
clear the selection, then for every clipboard note set its position to the
stored (relative) position plus the timeline position, select it and add it.
`clip` is the deserialized clipboard note list (deserialization itself is the
excluded collaborator). -/
def pasteNotes (timelinePos : Int) (clip : List Note) (ns : List Note) : List Note :=
  clip.foldl
    (fun acc c => addNote { c with pos := c.pos + timelinePos, selected := true } acc)
    (clearSelectedNotes ns)

/-- The note built by the draw-tool branch of `PianoRoll::mousePressEvent`
(PianoRoll.cpp:1323-1344): `MidiTime note_pos( pos_ticks - ( quantization() / 2 ) )`
with the raw pointer tick `pos_ticks`, length `newNoteLen()` and key
`getKey(me->y())`.  The old-state snapshot fields are not set at creation. -/
def createdNote (posTicks keyNum q noteLen lastVol lastPan : Int) : Note :=
  { pos := posTicks - q.tdiv 2, len := noteLen, key := keyNum,
    vol := lastVol, pan := lastPan, selected := true,
    oldPos := 0, oldLen := 0, oldKey := 0 }

/-- Pointer-down on empty canvas with the draw tool (no chord stamping):
clear the selection, create the new note, add it (PianoRoll.cpp:1330-1344). -/
def pressDrawNewNote (posTicks keyNum q noteLen lastVol lastPan : Int)
    (ns : List Note) : List Note :=
  addNote (createdNote posTicks keyNum q noteLen lastVol lastPan)
    (clearSelectedNotes ns)

/-- Modelled from the spec: `InstrumentFunctionNoteStacking::Chord` (not under
`src/`) — a named entry of the chord/scale table: an interval list plus the
scale/chord distinction; `hasSemiTone` is membership in the interval set and
`last` is the last interval. -/
structure Chord where
  intervals : List Int
  scale : Bool
deriving DecidableEq

/-- Last interval of a chord/scale (`Chord::last`), 0 when empty. -/
def Chord.last (c : Chord) : Int :=
  c.intervals.getLast?.getD 0

/-- Insert into a descending-sorted list (auxiliary for `sortDesc`). -/
def insertDesc (x : Int) : List Int → List Int
  | [] => [x]
  | y :: ys => if y < x then x :: y :: ys else y :: insertDesc x ys

/-- `qSort(begin, end, qGreater<int>())` of `markSemiTone`: sort descending. -/
def sortDesc : List Int → List Int
  | [] => []
  | x :: xs => insertDesc x (sortDesc xs)

/-- Tail of `std::unique`: drop every element equal to the last kept one. -/
def cppUniqueTail (prev : Int) : List Int → List Int
  | [] => []
  | y :: rest => if y = prev then cppUniqueTail prev rest else y :: cppUniqueTail y rest

/-- `std::unique`: keep the first element of every run of equal elements. -/
def cppUnique : List Int → List Int
  | [] => []
  | x :: rest => x :: cppUniqueTail x rest

/-- The integer range `[first, last]`, inclusive, matching the loop
`for( int i = first; i <= last; i++ )`. -/
def intRangeIncl (first last : Int) : List Int :=
  (List.range (last - first + 1).toNat).map (fun j : Nat => first + (j : Int))

/-- The shared chord/scale-marking branch of `PianoRoll::markSemiTone`
(PianoRoll.cpp:460-501), reached by `stmaMarkCurrentScale` (where `c` is the
scale looked up by name, so `c.scale = true`) and by `stmaMarkCurrentChord`,
followed by the final descending sort and `std::unique` deduplication that
`markSemiTone` applies to `m_markedSemiTones`.  `key` is the reference key of
the clicked row and `marks` the existing `m_markedSemiTones`. -/
def markSemiToneChordScale (c : Chord) (key : Int) (marks : List Int) : List Int :=
  let m1 :=
    if c.intervals = [] then marks
    else
      let m0 := if c.scale = true then [] else marks
      let first := if c.scale = true then 0 else key
      let last := if c.scale = true then NumKeys else key + c.last
      let cap := if c.scale = true ∨ c.last = 0 then KeysPerOctave else c.last
      m0 ++ (intRangeIncl first last).filter
        (fun i => decide (((i + cap - key.tmod cap).tmod cap) ∈ c.intervals))
  cppUnique (sortDesc m1)

/-- The MarkScale result as the spec's words describe it: the keys `k` in
`[0, NumKeys)` with `(k - referenceKey) mod period` in the scale's interval
set, where `period` is the scale's repeat length (its last interval),
defaulting to one octave when the scale's last interval is 0. -/
def markScaleSpecMem (c : Chord) (refKey k : Int) : Prop :=
  0 ≤ k ∧ k < NumKeys ∧
    (k - refKey) % (if c.last = 0 then KeysPerOctave else c.last) ∈ c.intervals

instance (c : Chord) (refKey k : Int) : Decidable (markScaleSpecMem c refKey k) := by
  unfold markScaleSpecMem
  infer_instance

/-- The boundary invariant of the spec: position nonnegative and key within
`[0, NumKeys]`. -/
def noteInBounds (n : Note) : Prop :=
  0 ≤ n.pos ∧ 0 ≤ n.key ∧ n.key ≤ NumKeys

instance (n : Note) : Decidable (noteInBounds n) := by
  unfold noteInBounds
  infer_instance

/-! ## Helper lemmas -/

/-- A single Moving-state `dragNotes` loop step keeps every selected note's
position nonnegative and key within `[0, NumKeys]`: the moving branch clamps
explicitly, the quick-resize branch only touches the length. -/
theorem dragStep_moveNote_bounds (p : DragParams) (hp : p.action = Action.moveNote)
    (so ref : Int) (n : Note) (h : n.selected = true → noteInBounds n) :
    (dragStep p so ref n).1.selected = true → noteInBounds (dragStep p so ref n).1 := by
  obtain ⟨pos, len, key, vol, pan, sel, op, ol, ok⟩ := n
  by_cases hqr : p.shift = true ∧ p.startedWithShift = false
  all_goals cases sel
  all_goals
    simp only [dragStep, hp, noteInBounds, hqr, reduceCtorEq, false_and, if_false,
      not_true_eq_false, and_false, not_false_eq_true, true_and, and_true, if_true,
      true_implies, false_implies, Bool.false_eq_true, forall_const] at h ⊢
  · exact h
  · exact ⟨le_sup_left, le_inf le_sup_left (by decide), inf_le_right⟩

/-- The Moving-state `dragNotes` loop preserves the selected-note bounds. -/
theorem dragLoop_moveNote_bounds (p : DragParams) (hp : p.action = Action.moveNote) :
    ∀ (ns : List Note) (so ref : Int),
      (∀ n ∈ ns, n.selected = true → noteInBounds n) →
      ∀ m ∈ dragLoop p so ref ns, m.selected = true → noteInBounds m := by
  intro ns
  induction ns with
  | nil =>
    intro so ref h m hm
    simp [dragLoop] at hm
  | cons n rest ih =>
    intro so ref h m hm
    simp only [dragLoop, List.mem_cons] at hm
    rcases hm with rfl | hm
    · exact dragStep_moveNote_bounds p hp so ref n (h n (by simp))
    · exact ih _ _ (fun x hx => h x (by simp [hx])) m hm

/-- `getD` through `map` at an in-range index. -/
theorem getD_map_of_lt {α β : Type} (f : α → β) (l : List α) (i : Nat)
    (hi : i < l.length) (d : α) (e : β) :
    (l.map f).getD i e = f (l.getD i d) := by
  simp [List.getD_eq_getElem?_getD, List.getElem?_map, List.getElem?_eq_getElem hi]

/-- `getD` at an in-range index is a member of the list. -/
theorem getD_mem_of_lt {α : Type} (l : List α) (i : Nat) (hi : i < l.length) (d : α) :
    l.getD i d ∈ l := by
  rw [List.getD_eq_getElem?_getD, List.getElem?_eq_getElem hi]
  exact List.getElem_mem hi

/-- In the Moving state a `dragNotes` loop step neither reads nor writes the
`shift_offset` / `shift_ref_pos` accumulators. -/
theorem dragStep_moveNote_fst (p : DragParams) (hp : p.action = Action.moveNote)
    (so ref : Int) (n : Note) :
    dragStep p so ref n = ((dragStep p 0 (-1) n).1, so, ref) := by
  obtain ⟨pos, len, key, vol, pan, sel, op, ol, ok⟩ := n
  by_cases hqr : p.shift = true ∧ p.startedWithShift = false
  all_goals cases sel
  all_goals
    simp [dragStep, hp, hqr]

/-- In the Moving state the `dragNotes` loop is a pointwise map. -/
theorem dragLoop_moveNote_map (p : DragParams) (hp : p.action = Action.moveNote) :
    ∀ (ns : List Note) (so ref : Int),
      dragLoop p so ref ns = ns.map (fun n => (dragStep p 0 (-1) n).1) := by
  intro ns
  induction ns with
  | nil => intro so ref; rfl
  | cons n rest ih =>
    intro so ref
    show (dragStep p so ref n).1 :: dragLoop p (dragStep p so ref n).2.1
        (dragStep p so ref n).2.2 rest = _
    rw [dragStep_moveNote_fst p hp so ref n]
    simp [ih]

/-- When the leftmost selected note would stay nonnegative, the shared tick
offset is just the (possibly quantized) raw offset. -/
theorem dragOffTicks_noclamp (sws : Bool) (bLeft q t : Int) (alt shift : Bool)
    (hqr : ¬(shift = true ∧ sws = false))
    (hL : 0 ≤ bLeft + (if alt = false then snap t q else t)) :
    dragOffTicks Action.moveNote sws bLeft q t alt shift =
      (if alt = false then snap t q else t) := by
  unfold dragOffTicks
  rw [if_pos ⟨rfl, hqr⟩, if_neg (by omega)]

/-- When the boundary box stays within `[0, NumKeys]`, the shared key offset
is the raw key offset. -/
theorem dragOffKey_noclamp (sws : Bool) (bTop bBottom k : Int) (shift : Bool)
    (hqr : ¬(shift = true ∧ sws = false))
    (hT : bTop + k ≤ NumKeys) (hB : 0 ≤ bBottom + k) :
    dragOffKey Action.moveNote sws bTop bBottom k shift = k := by
  unfold dragOffKey
  rw [if_pos ⟨rfl, hqr⟩]
  simp only [if_neg (by omega : ¬bTop + k > NumKeys)]
  rw [if_neg (by omega)]

/-- A Moving-state (non-quick-resize) step moves a selected note to its
snapshot position/key plus the shared offsets, before any per-note clamp is
relevant: the clamps are no-ops when the results stay in range. -/
theorem dragStep_moveNote_selected (p : DragParams) (hp : p.action = Action.moveNote)
    (hqr : ¬(p.shift = true ∧ p.startedWithShift = false)) (n : Note)
    (hsel : n.selected = true)
    (hpos : 0 ≤ n.oldPos + p.offTicks)
    (hkey0 : 0 ≤ n.oldKey + p.offKey) (hkey1 : n.oldKey + p.offKey ≤ NumKeys) :
    (dragStep p 0 (-1) n).1 =
      { n with pos := n.oldPos + p.offTicks, key := n.oldKey + p.offKey } := by
  obtain ⟨pos, len, key, vol, pan, sel, op, ol, ok⟩ := n
  simp only at hsel hpos hkey0 hkey1
  subst hsel
  simp [dragStep, hp, hqr, max_eq_right hpos, max_eq_right hkey0, min_eq_left, hkey1]

/-- A Moving-state step leaves an unselected note unchanged. -/
theorem dragStep_moveNote_unselected (p : DragParams) (hp : p.action = Action.moveNote)
    (n : Note) (hsel : n.selected = false) :
    (dragStep p 0 (-1) n).1 = n := by
  obtain ⟨pos, len, key, vol, pan, sel, op, ol, ok⟩ := n
  simp only at hsel
  subst hsel
  simp [dragStep, hp]

/-- The modelled key setter clamps into `[0, NumKeys]`. -/
theorem setKeyClamped_bounds (k : Int) :
    0 ≤ setKeyClamped k ∧ setKeyClamped k ≤ NumKeys := by
  unfold setKeyClamped
  exact ⟨le_min (le_max_left 0 k) (by decide), min_le_right _ _⟩

/-- Once the first moved note has fixed the (possibly clamped) amount, every
later moved note stays nonnegative provided its position plus the amount
is. -/
theorem shiftPosLoop_false_bounds (useAll : Bool) (a : Int) :
    ∀ ns : List Note, (∀ n ∈ ns, noteInBounds n) →
      (∀ n ∈ ns, (n.selected || (useAll && decide (n.len > 0))) = true → 0 ≤ n.pos + a) →
      ∀ m ∈ shiftPosLoop useAll a false ns, noteInBounds m := by
  intro ns
  induction ns with
  | nil =>
    intro _ _ m hm
    simp [shiftPosLoop] at hm
  | cons n rest ih =>
    intro hwf hmatch m hm
    by_cases hc : (n.selected || (useAll && decide (n.len > 0))) = true
    · rw [shiftPosLoop, if_pos hc, if_neg (by simp)] at hm
      rcases List.mem_cons.mp hm with rfl | hm
      · obtain ⟨_, h2, h3⟩ := hwf n (by simp)
        exact ⟨hmatch n (by simp) hc, h2, h3⟩
      · exact ih (fun x hx => hwf x (by simp [hx]))
          (fun x hx h => hmatch x (by simp [hx]) h) m hm
    · rw [shiftPosLoop, if_neg hc] at hm
      rcases List.mem_cons.mp hm with rfl | hm
      · exact hwf m (by simp)
      · exact ih (fun x hx => hwf x (by simp [hx]))
          (fun x hx h => hmatch x (by simp [hx]) h) m hm

/-- The full `shiftPos` loop: the first moved note clamps the shared amount so
its own new position is nonnegative; since the store is sorted by position,
every later moved note is at least as far right and stays nonnegative too. -/
theorem shiftPosLoop_true_bounds (useAll : Bool) (a : Int) :
    ∀ ns : List Note, (∀ n ∈ ns, noteInBounds n) →
      List.Pairwise (fun x y => x.pos ≤ y.pos) ns →
      ∀ m ∈ shiftPosLoop useAll a true ns, noteInBounds m := by
  intro ns
  induction ns generalizing a with
  | nil =>
    intro _ _ m hm
    simp [shiftPosLoop] at hm
  | cons n rest ih =>
    intro hwf hsorted m hm
    obtain ⟨hhead, htail⟩ := List.pairwise_cons.mp hsorted
    by_cases hc : (n.selected || (useAll && decide (n.len > 0))) = true
    · rw [shiftPosLoop, if_pos hc] at hm
      set a1 := if true = true ∧ n.pos + a < 0 then a + (0 - (a + n.pos)) else a with ha1
      have h1 : 0 ≤ n.pos + a1 := by
        rw [ha1]
        by_cases hneg : n.pos + a < 0
        · rw [if_pos ⟨rfl, hneg⟩]
          omega
        · rw [if_neg (by tauto)]
          omega
      rcases List.mem_cons.mp hm with rfl | hm
      · obtain ⟨_, h2, h3⟩ := hwf n (by simp)
        exact ⟨h1, h2, h3⟩
      · refine shiftPosLoop_false_bounds useAll a1 rest
          (fun x hx => hwf x (by simp [hx])) ?_ m hm
        intro x hx _
        have := hhead x hx
        omega
    · rw [shiftPosLoop, if_neg hc] at hm
      rcases List.mem_cons.mp hm with rfl | hm
      · exact hwf m (by simp)
      · exact ih a (fun x hx => hwf x (by simp [hx])) htail m hm

/-- A shift-resize loop step on an unselected note only rewrites its position
to the shifted old position (minus the offset again when it sits on the
reference position and the shifted value is nonzero), and leaves the
accumulators alone. -/
theorem dragStep_resizeShift_unsel (p : DragParams) (hp : p.action = Action.resizeNote)
    (hs : p.shift = true) (so ref : Int) (n : Note) (hsel : n.selected = false) :
    dragStep p so ref n =
      ({ n with pos := if n.oldPos + so ≠ 0 ∧ n.pos = ref then n.oldPos + so - p.offTicks
                       else n.oldPos + so }, so, ref) := by
  obtain ⟨pos, len, key, vol, pan, sel, op, ol, ok⟩ := n
  simp only at hsel
  subst hsel
  simp [dragStep, hp, hs]

/-- A shift-resize loop step on the (selected) resized note keeps its position
and key, sets its length to the clamped resized length, and — exactly when the
new length is positive — loads the accumulators with the tick offset and the
note's position. -/
theorem dragStep_resizeShift_A (p : DragParams) (hp : p.action = Action.resizeNote)
    (hs : p.shift = true) (offT : Int) (hofft : p.offTicks = offT) (A : Note)
    (hA : A.selected = true) (hApos : A.pos = A.oldPos) (h0 : 0 ≤ A.pos) :
    dragStep p 0 (-1) A =
      if A.oldLen + offT ≤ 0 then ({ A with len := 1 }, 0, -1)
      else ({ A with len := A.oldLen + offT }, offT, A.pos) := by
  subst hofft
  obtain ⟨pos, len, key, vol, pan, sel, op, ol, ok⟩ := A
  simp only at hA hApos h0
  subst hA
  subst hApos
  by_cases htn : ol + p.offTicks ≤ 0
  · simp [dragStep, hp, hs, htn, (by omega : ¬pos = -1)] <;> omega
  · simp [dragStep, hp, hs, htn, (by omega : ¬pos = -1), (by omega : pos > -1)] <;> omega

/-- The shift-resize loop passes over a block of unselected snapshot notes
with zeroed accumulators without changing anything. -/
theorem dragLoop_resizeShift_pre (p : DragParams) (hp : p.action = Action.resizeNote)
    (hs : p.shift = true) :
    ∀ (pre : List Note), (∀ n ∈ pre, n.selected = false) →
      (∀ n ∈ pre, n.pos = n.oldPos) → (∀ n ∈ pre, 0 ≤ n.pos) →
      ∀ rest, dragLoop p 0 (-1) (pre ++ rest) = pre ++ dragLoop p 0 (-1) rest := by
  intro pre
  induction pre with
  | nil => intro _ _ _ rest; rfl
  | cons n pre' ih =>
    intro hsel hsnap hpos rest
    have hn : dragStep p 0 (-1) n = (n, 0, -1) := by
      rw [dragStep_resizeShift_unsel p hp hs 0 (-1) n (hsel n (by simp))]
      have h1 : n.pos = n.oldPos := hsnap n (by simp)
      have h2 : 0 ≤ n.pos := hpos n (by simp)
      have : ¬(n.oldPos + 0 ≠ 0 ∧ n.pos = (-1 : Int)) := by omega
      rw [if_neg this]
      have : ({ n with pos := n.oldPos + 0 } : Note) = n := by
        rw [show n.oldPos + 0 = n.pos by omega]
      rw [this]
    show (dragStep p 0 (-1) n).1 :: dragLoop p (dragStep p 0 (-1) n).2.1
        (dragStep p 0 (-1) n).2.2 (pre' ++ rest) = _
    rw [hn]
    simp only [List.cons_append, List.cons.injEq, true_and]
    exact ih (fun x hx => hsel x (by simp [hx])) (fun x hx => hsnap x (by simp [hx]))
      (fun x hx => hpos x (by simp [hx])) rest

/-- After the resized note has loaded the accumulators, the shift-resize loop
maps every remaining unselected snapshot note to its old position plus the
offset, except that a note sitting exactly on the reference position keeps its
position whenever the shifted value is nonzero. -/
theorem dragLoop_resizeShift_post (p : DragParams) (hp : p.action = Action.resizeNote)
    (hs : p.shift = true) (refPos offT : Int) (hofft : p.offTicks = offT) :
    ∀ (post : List Note), (∀ n ∈ post, n.selected = false) →
      (∀ n ∈ post, n.pos = n.oldPos) →
      dragLoop p offT refPos post =
        post.map (fun n =>
          if n.pos = refPos ∧ n.pos + offT ≠ 0 then n
          else { n with pos := n.pos + offT }) := by
  subst hofft
  intro post
  induction post with
  | nil => intro _ _; rfl
  | cons n post' ih =>
    intro hsel hsnap
    have h1 : n.pos = n.oldPos := hsnap n (by simp)
    have hn : dragStep p p.offTicks refPos n =
        (if n.pos = refPos ∧ n.pos + p.offTicks ≠ 0 then n
         else { n with pos := n.pos + p.offTicks }, p.offTicks, refPos) := by
      rw [dragStep_resizeShift_unsel p hp hs p.offTicks refPos n (hsel n (by simp))]
      by_cases hc : n.pos = refPos ∧ n.pos + p.offTicks ≠ 0
      · rw [if_pos (by omega : n.oldPos + p.offTicks ≠ 0 ∧ n.pos = refPos)]
        rw [if_pos hc]
        have : ({ n with pos := n.oldPos + p.offTicks - p.offTicks } : Note) = n := by
          rw [show n.oldPos + p.offTicks - p.offTicks = n.pos by omega]
        rw [this]
      · by_cases hr : n.pos = refPos
        · have hz : n.oldPos + p.offTicks = 0 := by
            rcases not_and_or.mp hc with h | h
            · exact absurd hr h
            · omega
          rw [if_neg (by omega : ¬(n.oldPos + p.offTicks ≠ 0 ∧ n.pos = refPos))]
          rw [if_neg hc]
          have : n.oldPos + p.offTicks = n.pos + p.offTicks := by omega
          rw [this]
        · rw [if_neg (by tauto : ¬(n.oldPos + p.offTicks ≠ 0 ∧ n.pos = refPos))]
          rw [if_neg hc]
          have : n.oldPos + p.offTicks = n.pos + p.offTicks := by omega
          rw [this]
    show (dragStep p p.offTicks refPos n).1 :: dragLoop p (dragStep p p.offTicks refPos n).2.1
        (dragStep p p.offTicks refPos n).2.2 post' = _
    rw [hn]
    simp only [List.map_cons, List.cons.injEq, true_and]
    exact ih (fun x hx => hsel x (by simp [hx])) (fun x hx => hsnap x (by simp [hx]))

/-- The tick offset `dragNotes` uses in the Resizing state is the raw offset,
quantized unless `alt` is held (the boundary clamps apply only when moving). -/
theorem dragOffTicks_resize (sws : Bool) (bLeft q t : Int) (alt shift : Bool) :
    dragOffTicks Action.resizeNote sws bLeft q t alt shift =
      (if alt = false then snap t q else t) := by
  unfold dragOffTicks
  simp

/-- A whole Moving-state `dragNotes` update preserves the selected-note
bounds, for any offsets, modifiers and boundary-box values. -/
theorem dragNotes_moveNote_bounds (sws : Bool) (bLeft bTop bBottom q t k : Int)
    (alt shift : Bool) (ns : List Note)
    (h : ∀ n ∈ ns, n.selected = true → noteInBounds n) :
    ∀ m ∈ dragNotes Action.moveNote sws bLeft bTop bBottom q t k alt shift ns,
      m.selected = true → noteInBounds m := by
  intro m hm
  exact dragLoop_moveNote_bounds _ rfl ns _ _ h m hm

/-- Applying the additive per-note selection body twice restores the note:
the match condition ignores the selected flag, and toggling twice is the
identity. -/
theorem selApply_toggle (posStart posEnd keyStart keyEnd startKey : Int) (n : Note) :
    selApply posStart posEnd keyStart keyEnd startKey true
      (selApply posStart posEnd keyStart keyEnd startKey true n) = n := by
  obtain ⟨pos, len, key, vol, pan, sel, op, ol, ok⟩ := n
  unfold selApply
  by_cases hlen : len = 0
  · simp [hlen]
  · by_cases hc : key - startKey + 1 > keyStart ∧ key - startKey + 1 ≤ keyEnd ∧
        pos + (if len < 0 then 4 else len) > posStart ∧ pos < posEnd
    · simp [hlen, hc]
    · simp [hlen, hc]

/-- Inserting into a sorted-descending list is a permutation of consing. -/
theorem insertDesc_perm (x : Int) (l : List Int) : List.Perm (insertDesc x l) (x :: l) := by
  induction l with
  | nil => exact List.Perm.refl _
  | cons y ys ih =>
    unfold insertDesc
    by_cases h : y < x
    · rw [if_pos h]
    · rw [if_neg h]
      exact (ih.cons y).trans (List.Perm.swap x y ys)

/-- The descending sort permutes its input. -/
theorem sortDesc_perm (l : List Int) : List.Perm (sortDesc l) l := by
  induction l with
  | nil => exact List.Perm.refl _
  | cons x xs ih => exact (insertDesc_perm x (sortDesc xs)).trans (ih.cons x)

/-- Everything `cppUniqueTail` keeps was in its input. -/
theorem cppUniqueTail_subset (a : Int) :
    ∀ (prev : Int) (l : List Int), a ∈ cppUniqueTail prev l → a ∈ l := by
  intro prev l
  induction l generalizing prev with
  | nil => intro h; simpa [cppUniqueTail] using h
  | cons y rest ih =>
    intro h
    unfold cppUniqueTail at h
    by_cases hy : y = prev
    · rw [if_pos hy] at h
      exact List.mem_cons_of_mem y (ih prev h)
    · rw [if_neg hy] at h
      rcases List.mem_cons.mp h with rfl | h
      · exact List.mem_cons_self a rest
      · exact List.mem_cons_of_mem y (ih y h)

/-- Everything in the input of `cppUniqueTail` is kept or equals the last kept
element. -/
theorem mem_cppUniqueTail_or (a : Int) :
    ∀ (prev : Int) (l : List Int), a ∈ l → a = prev ∨ a ∈ cppUniqueTail prev l := by
  intro prev l
  induction l generalizing prev with
  | nil => intro h; simp at h
  | cons y rest ih =>
    intro h
    unfold cppUniqueTail
    by_cases hy : y = prev
    · rw [if_pos hy]
      rcases List.mem_cons.mp h with rfl | h
      · exact Or.inl hy
      · exact ih prev h
    · rw [if_neg hy]
      rcases List.mem_cons.mp h with rfl | h
      · exact Or.inr (List.mem_cons_self a _)
      · rcases ih y h with rfl | h
        · exact Or.inr (List.mem_cons_self a _)
        · exact Or.inr (List.mem_cons_of_mem y h)

/-- `std::unique` preserves membership. -/
theorem mem_cppUnique (a : Int) (l : List Int) : a ∈ cppUnique l ↔ a ∈ l := by
  cases l with
  | nil => simp [cppUnique]
  | cons x rest =>
    show a ∈ x :: cppUniqueTail x rest ↔ _
    constructor
    · intro h
      rcases List.mem_cons.mp h with rfl | h
      · exact List.mem_cons_self a rest
      · exact List.mem_cons_of_mem x (cppUniqueTail_subset a x rest h)
    · intro h
      rcases List.mem_cons.mp h with rfl | h
      · exact List.mem_cons_self a _
      · rcases mem_cppUniqueTail_or a x rest h with rfl | h
        · exact List.mem_cons_self a _
        · exact List.mem_cons_of_mem x h

/-- `cppUniqueTail` is the identity on duplicate-free lists avoiding `prev`. -/
theorem cppUniqueTail_eq_of_nodup :
    ∀ (prev : Int) (l : List Int), l.Nodup → prev ∉ l → cppUniqueTail prev l = l := by
  intro prev l
  induction l generalizing prev with
  | nil => intro _ _; rfl
  | cons y rest ih =>
    intro hnd hprev
    unfold cppUniqueTail
    rw [if_neg (by intro h; exact hprev (h ▸ List.mem_cons_self y rest))]
    rw [ih y (List.Nodup.of_cons hnd) (List.nodup_cons.mp hnd).1]

/-- `std::unique` is the identity on duplicate-free lists. -/
theorem cppUnique_eq_of_nodup (l : List Int) (h : l.Nodup) : cppUnique l = l := by
  cases l with
  | nil => rfl
  | cons x rest =>
    show x :: cppUniqueTail x rest = x :: rest
    rw [cppUniqueTail_eq_of_nodup x rest (List.Nodup.of_cons h) (List.nodup_cons.mp h).1]

/-- Membership in the inclusive integer range. -/
theorem mem_intRangeIncl (a b k : Int) : k ∈ intRangeIncl a b ↔ a ≤ k ∧ k ≤ b := by
  unfold intRangeIncl
  simp only [List.mem_map, List.mem_range]
  constructor
  · rintro ⟨j, hj, rfl⟩
    omega
  · intro h
    exact ⟨(k - a).toNat, by omega, by omega⟩


/-- The inclusive integer range has no duplicates. -/
theorem intRangeIncl_nodup (a b : Int) : (intRangeIncl a b).Nodup := by
  unfold intRangeIncl
  refine List.Nodup.map ?_ (List.nodup_range _)
  intro x y h
  simp only at h
  omega

/-- The index arithmetic `( i + cap - ( key % cap ) ) % cap` of the marking
loop equals the mathematical `(i - key) mod cap` for `cap = KeysPerOctave` and
nonnegative `i`, `key`. -/
theorem markIndex_eq (i key : Int) (hi : 0 ≤ i) (hk : 0 ≤ key) :
    (i + KeysPerOctave - key.tmod KeysPerOctave).tmod KeysPerOctave =
      (i - key) % KeysPerOctave := by
  simp only [KeysPerOctave]
  have h1 : key.tmod 12 = key % 12 := Int.tmod_eq_emod hk (by decide)
  have h2 : 0 ≤ key % 12 := Int.emod_nonneg key (by decide)
  have h3 : key % 12 < 12 := Int.emod_lt_of_pos key (by decide)
  have h4 : 0 ≤ i + 12 - key % 12 := by omega
  rw [h1, Int.tmod_eq_emod h4 (by decide)]
  omega

/-- Folding `addNote` over a list appends its image. -/
theorem foldl_addNote (g : Note → Note) :
    ∀ (clip : List Note) (acc : List Note),
      clip.foldl (fun a c => addNote (g c) a) acc = acc ++ clip.map g := by
  intro clip
  induction clip with
  | nil => intro acc; simp
  | cons c clip' ih =>
    intro acc
    show clip'.foldl (fun a c => addNote (g c) a) (addNote (g c) acc) = _
    rw [ih (addNote (g c) acc)]
    simp [addNote]

/-! ## Theorems -/

/-- Claim C1, counterexample: the offset quantization of `dragNotes` is the C
truncating integer division, not floor division.  At tick offset `-10` with
granularity `16` the code snaps to `0` (a single selected note at position 20
stays at 20), while the claim's floor-division snap would give `-16`. -/
theorem C1_counterexample :
    snap (-10) 16 = 0 ∧ snapSpecFloor (-10) 16 = -16 ∧
    (dragNotes Action.moveNote false 20 60 60 16 (-10) 0 false false
      [⟨20, 96, 60, 100, 0, true, 20, 96, 60⟩]).map Note.pos = [20] := by
  decide

/-- Claim C1 (amended): when the free modifier is not held, `dragNotes` snaps
the tick offset to `trunc(t / g) * g` (C integer division, rounding toward
zero), which coincides with the floor-division snap `floor(t / g) * g` for all
nonnegative offsets `t`; in particular, for offset `+10` and granularity `16`
the snapped offset is `0` and no selected note's position changes (scenario:
overlapping notes `[0,96)` and `[50,150)`, both selected). -/
theorem C1_snap_trunc_amended (t g : Int) (hg : 0 < g) (ht : 0 ≤ t) :
    snap t g = snapSpecFloor t g ∧
    dragNotes Action.moveNote false 0 62 60 16 10 0 false false
        [⟨0, 96, 60, 100, 0, true, 0, 96, 60⟩, ⟨50, 100, 62, 100, 0, true, 50, 100, 62⟩] =
      [⟨0, 96, 60, 100, 0, true, 0, 96, 60⟩, ⟨50, 100, 62, 100, 0, true, 50, 100, 62⟩] := by
  constructor
  · unfold snap snapSpecFloor
    rw [Int.fdiv_eq_tdiv ht (le_of_lt hg)]
  · decide

/-- Claim C1, witness for the amended theorem at `t = 10`, `g = 16`. -/
theorem C1_witness :
    (0 : Int) < 16 ∧ (0 : Int) ≤ 10 ∧ snap 10 16 = snapSpecFloor 10 16 :=
  ⟨by decide, by decide, (C1_snap_trunc_amended 10 16 (by decide) (by decide)).1⟩

/-- Claim C10: an all-zero selection region makes `computeSelectedNotes`
return immediately, leaving every note's selected flag (indeed every note)
unchanged, for every note store, additive or not. -/
theorem C10_zero_region_noop (startKey : Int) (shift : Bool) (ns : List Note) :
    computeSelectedNotes 0 0 0 0 startKey shift ns = ns := by
  unfold computeSelectedNotes
  simp

/-- Claim C5: committing the selection additively (shift held) twice with the
same region restores every note's original selected flag: matched notes are
toggled relative to their current state, unmatched notes are untouched, so the
double application is the identity on the note store. -/
theorem C5_additive_toggle_involution
    (selStartTick selTick selStartKey selKeys startKey : Int) (ns : List Note) :
    computeSelectedNotes selStartTick selTick selStartKey selKeys startKey true
      (computeSelectedNotes selStartTick selTick selStartKey selKeys startKey true ns) =
      ns := by
  unfold computeSelectedNotes
  by_cases h : selStartTick = 0 ∧ selTick = 0 ∧ selStartKey = 0 ∧ selKeys = 0
  · simp [h]
  · simp only [if_neg h, List.map_map]
    conv_rhs => rw [← List.map_id ns]
    apply List.map_congr_left
    intro n _
    simp only [Function.comp_apply, id_eq]
    exact selApply_toggle _ _ _ _ _ n

/-- Claim C2: for any sequence of `dragNotes` updates of a Moving-state
gesture (quantized or free, each with arbitrary offsets and modifiers), every
selected note's resulting position is `≥ 0` and its key lies in
`[0, NumKeys]`; the invariant is maintained by every single update (the proof
is preservation at each `foldl` step). -/
theorem C2_clamp_safety (startedWithShift : Bool) (bLeft bTop bBottom q : Int)
    (hq : 0 < q) (us : List (Int × Int × Bool × Bool)) (ns : List Note)
    (h : ∀ n ∈ ns, n.selected = true → noteInBounds n) :
    ∀ m ∈ dragUpdateSeq startedWithShift bLeft bTop bBottom q us ns,
      m.selected = true → noteInBounds m := by
  induction us generalizing ns with
  | nil => simpa [dragUpdateSeq] using h
  | cons u rest ih =>
    have hstep : dragUpdateSeq startedWithShift bLeft bTop bBottom q (u :: rest) ns =
        dragUpdateSeq startedWithShift bLeft bTop bBottom q rest
          (dragNotes Action.moveNote startedWithShift bLeft bTop bBottom q
            u.1 u.2.1 u.2.2.1 u.2.2.2 ns) := rfl
    rw [hstep]
    exact ih _ (dragNotes_moveNote_bounds startedWithShift bLeft bTop bBottom q
      u.1 u.2.1 u.2.2.1 u.2.2.2 ns h)

/-- Claim C3: when a Moving-state `dragNotes` update (not quick-resize) is
applied with offsets for which no boundary clamp triggers — the boundary box
bounds the selected notes, the leftmost selected note's new position stays
`≥ 0` and the boundary keys plus offset stay within `[0, NumKeys]` — every
pair of selected notes keeps exactly the pre-drag pairwise differences of
position and of key: the clamp acts on the shared offset, never per note. -/
theorem C3_group_shape_preservation (sws shift alt : Bool)
    (bLeft bTop bBottom q t k : Int) (ns : List Note)
    (hqr : ¬(shift = true ∧ sws = false))
    (hbound : ∀ n ∈ ns, n.selected = true →
      bLeft ≤ n.oldPos ∧ bBottom ≤ n.oldKey ∧ n.oldKey ≤ bTop)
    (hL : 0 ≤ bLeft + (if alt = false then snap t q else t))
    (hT : bTop + k ≤ NumKeys) (hB : 0 ≤ bBottom + k) :
    ∀ i j, i < ns.length → j < ns.length →
      ((ns.getD i dNote).selected = true) → ((ns.getD j dNote).selected = true) →
      ((dragNotes Action.moveNote sws bLeft bTop bBottom q t k alt shift ns).getD i dNote).pos -
          ((dragNotes Action.moveNote sws bLeft bTop bBottom q t k alt shift ns).getD j dNote).pos =
        (ns.getD i dNote).oldPos - (ns.getD j dNote).oldPos ∧
      ((dragNotes Action.moveNote sws bLeft bTop bBottom q t k alt shift ns).getD i dNote).key -
          ((dragNotes Action.moveNote sws bLeft bTop bBottom q t k alt shift ns).getD j dNote).key =
        (ns.getD i dNote).oldKey - (ns.getD j dNote).oldKey := by
  intro i j hi hj hsi hsj
  have hp : (⟨Action.moveNote, shift, sws,
      dragOffTicks Action.moveNote sws bLeft q t alt shift,
      dragOffKey Action.moveNote sws bTop bBottom k shift⟩ : DragParams).action =
      Action.moveNote := rfl
  have hmap : dragNotes Action.moveNote sws bLeft bTop bBottom q t k alt shift ns =
      ns.map (fun n => (dragStep ⟨Action.moveNote, shift, sws,
        dragOffTicks Action.moveNote sws bLeft q t alt shift,
        dragOffKey Action.moveNote sws bTop bBottom k shift⟩ 0 (-1) n).1) :=
    dragLoop_moveNote_map _ hp ns 0 (-1)
  have hstep : ∀ n ∈ ns, n.selected = true →
      (dragStep ⟨Action.moveNote, shift, sws,
        dragOffTicks Action.moveNote sws bLeft q t alt shift,
        dragOffKey Action.moveNote sws bTop bBottom k shift⟩ 0 (-1) n).1 =
      { n with pos := n.oldPos + (if alt = false then snap t q else t),
               key := n.oldKey + k } := by
    intro n hn hsel
    obtain ⟨hb1, hb2, hb3⟩ := hbound n hn hsel
    rw [dragStep_moveNote_selected _ hp hqr n hsel]
    · rw [dragOffTicks_noclamp sws bLeft q t alt shift hqr hL,
        dragOffKey_noclamp sws bTop bBottom k shift hqr hT hB]
    · show 0 ≤ n.oldPos + dragOffTicks Action.moveNote sws bLeft q t alt shift
      rw [dragOffTicks_noclamp sws bLeft q t alt shift hqr hL]
      omega
    · show 0 ≤ n.oldKey + dragOffKey Action.moveNote sws bTop bBottom k shift
      rw [dragOffKey_noclamp sws bTop bBottom k shift hqr hT hB]
      omega
    · show n.oldKey + dragOffKey Action.moveNote sws bTop bBottom k shift ≤ NumKeys
      rw [dragOffKey_noclamp sws bTop bBottom k shift hqr hT hB]
      omega
  rw [hmap, getD_map_of_lt _ ns i hi dNote dNote, getD_map_of_lt _ ns j hj dNote dNote,
    hstep _ (getD_mem_of_lt ns i hi dNote) hsi, hstep _ (getD_mem_of_lt ns j hj dNote) hsj]
  constructor <;> simp

/-- Claim C3, witness: two selected notes at old positions 0/50, old keys
60/62, moved by quantized offset +10 (snapped to 0) and key offset +1. -/
theorem C3_witness :
    ((dragNotes Action.moveNote false 0 62 60 16 10 1 false false
        [⟨0, 96, 60, 100, 0, true, 0, 96, 60⟩, ⟨50, 100, 62, 100, 0, true, 50, 100, 62⟩]).getD
          0 dNote).pos -
      ((dragNotes Action.moveNote false 0 62 60 16 10 1 false false
        [⟨0, 96, 60, 100, 0, true, 0, 96, 60⟩, ⟨50, 100, 62, 100, 0, true, 50, 100, 62⟩]).getD
          1 dNote).pos = 0 - 50 := by
  have h := C3_group_shape_preservation false false false 0 62 60 16 10 1
    [⟨0, 96, 60, 100, 0, true, 0, 96, 60⟩, ⟨50, 100, 62, 100, 0, true, 50, 100, 62⟩]
    (by decide) (by decide) (by decide) (by decide) (by decide)
    0 1 (by decide) (by decide) (by decide) (by decide)
  exact h.1

/-- Claim C8, counterexample: for the non-empty scale with interval set
`{0, 7}` (last interval 7) and reference key 0, the code marks key
`NumKeys = 120` (the loop bound `i <= last` is inclusive, outside the claim's
`[0, NumKeys)`) and does not mark key 14, while the claim's formula — period =
the scale's repeat length 7 since the last interval is nonzero — excludes 120
and includes 14 (`14 mod 7 = 0`): the code always uses one octave as the
period for scales and an existing mark (key 3) is indeed discarded. -/
theorem C8_counterexample :
    ((120 : Int) ∈ markSemiToneChordScale ⟨[0, 7], true⟩ 0 [3] ∧
      (14 : Int) ∉ markSemiToneChordScale ⟨[0, 7], true⟩ 0 [3] ∧
      (3 : Int) ∉ markSemiToneChordScale ⟨[0, 7], true⟩ 0 [3]) ∧
      (¬ markScaleSpecMem ⟨[0, 7], true⟩ 0 120 ∧ markScaleSpecMem ⟨[0, 7], true⟩ 0 14) := by
  decide

/-- Claim C8 (amended): for the MarkScale action with a non-empty scale and a
nonnegative reference key, the resulting marked-semitone set first discards
all existing marks (the result does not depend on them) and then contains
exactly the keys `k` in `[0, NumKeys]` — inclusive at `NumKeys` — such that
`(k - referenceKey) mod KeysPerOctave` lies in the scale's interval set: for a
scale the period is always one octave, regardless of the scale's last
interval; the result contains no duplicates. -/
theorem C8_mark_scale_amended (c : Chord) (key : Int) (marks : List Int)
    (hs : c.scale = true) (hne : c.intervals ≠ []) (hk : 0 ≤ key) :
    (∀ k : Int, k ∈ markSemiToneChordScale c key marks ↔
      (0 ≤ k ∧ k ≤ NumKeys ∧ (k - key) % KeysPerOctave ∈ c.intervals)) ∧
    (markSemiToneChordScale c key marks).Nodup := by
  obtain ⟨ivs, sc⟩ := c
  simp only at hs hne
  subst hs
  have hbody : markSemiToneChordScale ⟨ivs, true⟩ key marks =
      cppUnique (sortDesc ((intRangeIncl 0 NumKeys).filter
        (fun i => decide
          ((i + KeysPerOctave - key.tmod KeysPerOctave).tmod KeysPerOctave ∈ ivs)))) := by
    show cppUnique (sortDesc (if ivs = [] then marks
        else (intRangeIncl 0 NumKeys).filter
          (fun i => decide
            ((i + KeysPerOctave - key.tmod KeysPerOctave).tmod KeysPerOctave ∈ ivs)))) = _
    rw [if_neg hne]
  have hN1 : ((intRangeIncl 0 NumKeys).filter
      (fun i => decide
        ((i + KeysPerOctave - key.tmod KeysPerOctave).tmod KeysPerOctave ∈ ivs))).Nodup :=
    (intRangeIncl_nodup 0 NumKeys).filter _
  have hN2 : (sortDesc ((intRangeIncl 0 NumKeys).filter
      (fun i => decide
        ((i + KeysPerOctave - key.tmod KeysPerOctave).tmod KeysPerOctave ∈ ivs)))).Nodup :=
    (sortDesc_perm _).symm.nodup hN1
  constructor
  · intro k
    rw [hbody, mem_cppUnique, (sortDesc_perm _).mem_iff, List.mem_filter, mem_intRangeIncl]
    constructor
    · rintro ⟨⟨h0, h1⟩, hf⟩
      refine ⟨h0, h1, ?_⟩
      rw [← markIndex_eq k key h0 hk]
      exact of_decide_eq_true hf
    · rintro ⟨h0, h1, hmem⟩
      refine ⟨⟨h0, h1⟩, ?_⟩
      exact decide_eq_true (by rw [markIndex_eq k key h0 hk]; exact hmem)
  · rw [hbody, cppUnique_eq_of_nodup _ hN2]
    exact hN2

/-- Claim C8, witness for the amended theorem: the C-major triad used as a
scale from reference key 60 marks key 64 (`(64-60) mod 12 = 4`) and the result
is duplicate-free. -/
theorem C8_witness :
    (64 : Int) ∈ markSemiToneChordScale ⟨[0, 4, 7], true⟩ 60 [3] ∧
      (markSemiToneChordScale ⟨[0, 4, 7], true⟩ 60 [3]).Nodup := by
  have h := C8_mark_scale_amended ⟨[0, 4, 7], true⟩ 60 [3] rfl (by decide) (by decide)
  exact ⟨(h.1 64).mpr (by decide), h.2⟩

/-- Claim C9: every note restored by `pasteNotes` ends at its stored relative
position plus the timeline (insertion) position and is selected, and the
previous selection is cleared first: the resulting store consists exactly of
the old notes with their selected flag cleared plus the displaced, selected
clipboard notes. -/
theorem C9_paste_displacement (timelinePos : Int) (clip ns : List Note) :
    (∀ c ∈ clip,
      { c with pos := c.pos + timelinePos, selected := true } ∈
        pasteNotes timelinePos clip ns) ∧
    (∀ m ∈ pasteNotes timelinePos clip ns,
      (∃ n ∈ ns, m = { n with selected := false }) ∨
      (∃ c ∈ clip, m = { c with pos := c.pos + timelinePos, selected := true })) := by
  have heq : pasteNotes timelinePos clip ns =
      clearSelectedNotes ns ++
        clip.map (fun c => { c with pos := c.pos + timelinePos, selected := true }) :=
    foldl_addNote _ clip (clearSelectedNotes ns)
  rw [heq]
  constructor
  · intro c hc
    exact List.mem_append_right _ (List.mem_map.mpr ⟨c, hc, rfl⟩)
  · intro m hm
    rcases List.mem_append.mp hm with hm | hm
    · rcases List.mem_map.mp hm with ⟨n, hn, rfl⟩
      exact Or.inl ⟨n, hn, rfl⟩
    · rcases List.mem_map.mp hm with ⟨c, hc, rfl⟩
      exact Or.inr ⟨c, hc, rfl⟩

/-- Claim C9, witness: pasting one clipboard note with relative position 10 at
timeline position 100 yields the selected note at position 110. -/
theorem C9_witness :
    (⟨110, 48, 60, 100, 0, true, 0, 0, 0⟩ : Note) ∈
      pasteNotes 100 [⟨10, 48, 60, 100, 0, false, 0, 0, 0⟩]
        [⟨0, 96, 50, 100, 0, true, 0, 0, 0⟩] :=
  (C9_paste_displacement 100 [⟨10, 48, 60, 100, 0, false, 0, 0, 0⟩]
      [⟨0, 96, 50, 100, 0, true, 0, 0, 0⟩]).1
    ⟨10, 48, 60, 100, 0, false, 0, 0, 0⟩ (by decide)

/-- Claim C6, counterexample: with the draw tool, pointer tick 10 and
quantization 16, the created note's position is the raw pointer tick minus
half a step, `10 - 8 = 2`, not the snapped pointer tick minus half a step,
`0 - 8 = -8`: the source (PianoRoll.cpp:1337) subtracts `quantization()/2`
from the unsnapped `pos_ticks`. -/
theorem C6_counterexample :
    (pressDrawNewNote 10 60 16 48 100 0 []).map Note.pos = [2] ∧
      snapSpecFloor 10 16 - (16 : Int).tdiv 2 = -8 ∧
      snap 10 16 - (16 : Int).tdiv 2 = -8 := by
  decide

/-- Claim C6 (amended): pointer-down on empty canvas with the draw tool and no
note under the cursor creates, after clearing the selection, a selected note
of length equal to the configured new-note length, key equal to the pointer
key, and position equal to the raw (unsnapped) pointer tick minus half a
quantization step. -/
theorem C6_new_note_amended (posTicks keyNum q noteLen lastVol lastPan : Int)
    (ns : List Note) :
    pressDrawNewNote posTicks keyNum q noteLen lastVol lastPan ns =
      clearSelectedNotes ns ++ [createdNote posTicks keyNum q noteLen lastVol lastPan] ∧
    (createdNote posTicks keyNum q noteLen lastVol lastPan).pos = posTicks - q.tdiv 2 ∧
    (createdNote posTicks keyNum q noteLen lastVol lastPan).len = noteLen ∧
    (createdNote posTicks keyNum q noteLen lastVol lastPan).key = keyNum ∧
    (createdNote posTicks keyNum q noteLen lastVol lastPan).selected = true := by
  exact ⟨rfl, rfl, rfl, rfl, rfl⟩

/-- Claim C7: starting from a well-formed store (positions nonnegative, keys
in `[0, NumKeys]`, sorted ascending by position as the data-model invariant
requires), `shiftSemiTone` and `shiftPos` with any amount — however far out of
range — silently clamp and leave every note with key in `[0, NumKeys]` and
position `≥ 0`: `shiftSemiTone` clamps through the note store's key setter,
`shiftPos` clamps the shared amount against the first (leftmost) moved
note. -/
theorem C7_out_of_range_clamped (amount : Int) (ns : List Note)
    (hsorted : List.Pairwise (fun a b => a.pos ≤ b.pos) ns)
    (hwf : ∀ n ∈ ns, noteInBounds n) :
    (∀ m ∈ shiftSemiTone amount ns, noteInBounds m) ∧
    (∀ m ∈ shiftPos amount ns, noteInBounds m) := by
  constructor
  · intro m hm
    unfold shiftSemiTone at hm
    rcases List.mem_map.mp hm with ⟨n, hn, rfl⟩
    by_cases hc : ((!isSelection ns) || n.selected) = true
    · rw [if_pos hc]
      obtain ⟨h1, _, _⟩ := hwf n hn
      exact ⟨h1, setKeyClamped_bounds (n.key + amount)⟩
    · rw [if_neg hc]
      exact hwf n hn
  · exact shiftPosLoop_true_bounds (!isSelection ns) amount ns hwf hsorted

/-- Claim C7, witness: a store of two notes at positions 5 and 10, keys 60,
shifted by −100 ticks and +1000 semitones. -/
theorem C7_witness :
    noteInBounds ⟨120, 10, 120, 100, 0, false, 0, 0, 0⟩ ∧
      noteInBounds ⟨0, 10, 60, 100, 0, false, 0, 0, 0⟩ := by
  constructor
  · exact (C7_out_of_range_clamped 1000
      [⟨5, 10, 60, 100, 0, false, 0, 0, 0⟩, ⟨120, 10, 60, 100, 0, false, 0, 0, 0⟩]
      (by decide) (by decide)).1 ⟨120, 10, 120, 100, 0, false, 0, 0, 0⟩ (by decide)
  · exact (C7_out_of_range_clamped (-100)
      [⟨5, 10, 60, 100, 0, false, 0, 0, 0⟩, ⟨120, 10, 60, 100, 0, false, 0, 0, 0⟩]
      (by decide) (by decide)).2 ⟨0, 10, 60, 100, 0, false, 0, 0, 0⟩ (by decide)

/-- Claim C4, counterexample: shift-resize of selected note A (position 10,
length 20) by tick offset −10 with an unselected note N at the *same* original
position 10 iterated after it.  N's shifted position `10 + (−10) = 0` defeats
the `shifted_pos &&` guard (PianoRoll.cpp:2424), so N is moved to position 0
even though its original position does not strictly exceed A's — the claim
says every note at lesser or equal original position is left unchanged. -/
theorem C4_counterexample :
    (dragNotes Action.resizeNote false 0 0 0 1 (-10) 0 true true
        [⟨10, 20, 60, 100, 0, true, 10, 20, 60⟩,
         ⟨10, 5, 55, 100, 0, false, 10, 5, 55⟩]).map Note.pos = [10, 0] ∧
      (⟨10, 5, 55, 100, 0, false, 10, 5, 55⟩ : Note).pos = 10 := by
  decide

/-- Claim C4 (amended): during a shift-held resize of the single selected note
`A` (store sorted by position, positions nonnegative, snapshots equal to the
current values), only `A`'s length changes, to `oldLength + off` clamped to a
minimum of 1; when the clamped length is positive, among the other notes only
positions change, and only of notes iterated after `A`: a note at strictly
greater original position moves by the shared offset `off`, while a note at
original position equal to `A`'s keeps its position — except that when its
position plus `off` is exactly zero it is moved to position 0; notes iterated
before `A` are entirely unchanged, and when the resized length is clamped to 1
no other note changes at all.  This applies to all notes in position order,
regardless of selection. -/
theorem C4_shift_resize_amended (sws alt : Bool) (bLeft bTop bBottom q t k : Int)
    (pre post : List Note) (A : Note) (off : Int)
    (hoff : off = (if alt = false then snap t q else t))
    (hselPre : ∀ n ∈ pre, n.selected = false)
    (hsnapPre : ∀ n ∈ pre, n.pos = n.oldPos)
    (hposPre : ∀ n ∈ pre, 0 ≤ n.pos)
    (hA : A.selected = true) (hApos : A.pos = A.oldPos) (hAnn : 0 ≤ A.pos)
    (hselPost : ∀ n ∈ post, n.selected = false)
    (hsnapPost : ∀ n ∈ post, n.pos = n.oldPos)
    (hposPost : ∀ n ∈ post, 0 ≤ n.pos)
    (hsorted : ∀ n ∈ post, A.pos ≤ n.pos) :
    dragNotes Action.resizeNote sws bLeft bTop bBottom q t k alt true (pre ++ A :: post) =
      pre ++
        { A with len := if A.oldLen + off ≤ 0 then 1 else A.oldLen + off } ::
        post.map (fun n =>
          if A.oldLen + off ≤ 0 then n
          else if A.pos < n.pos then { n with pos := n.pos + off }
          else if n.pos + off = 0 then { n with pos := 0 }
          else n) := by
  have hpoff : dragOffTicks Action.resizeNote sws bLeft q t alt true = off := by
    rw [dragOffTicks_resize, hoff]
  show dragLoop
      ⟨Action.resizeNote, true, sws, dragOffTicks Action.resizeNote sws bLeft q t alt true,
        dragOffKey Action.resizeNote sws bTop bBottom k true⟩ 0 (-1) (pre ++ A :: post) = _
  rw [hpoff]
  rw [dragLoop_resizeShift_pre _ rfl rfl pre hselPre hsnapPre hposPre (A :: post)]
  congr 1
  show (dragStep _ 0 (-1) A).1 ::
      dragLoop _ (dragStep _ 0 (-1) A).2.1 (dragStep _ 0 (-1) A).2.2 post = _
  rw [dragStep_resizeShift_A _ rfl rfl off rfl A hA hApos hAnn]
  by_cases htn : A.oldLen + off ≤ 0
  · rw [if_pos htn, if_pos htn]
    simp only [List.cons.injEq, true_and]
    have hpost := dragLoop_resizeShift_pre
      (⟨Action.resizeNote, true, sws, off,
        dragOffKey Action.resizeNote sws bTop bBottom k true⟩ : DragParams)
      rfl rfl post hselPost hsnapPost hposPost []
    rw [show dragLoop
        (⟨Action.resizeNote, true, sws, off,
          dragOffKey Action.resizeNote sws bTop bBottom k true⟩ : DragParams) 0 (-1) [] = []
      from rfl, List.append_nil] at hpost
    rw [hpost]
    symm
    exact List.map_id'' (fun n => if_pos htn) post
  · rw [if_neg htn, if_neg htn]
    simp only [List.cons.injEq, true_and]
    rw [dragLoop_resizeShift_post _ rfl rfl A.pos off rfl post hselPost hsnapPost]
    apply List.map_congr_left
    intro n hn
    have hge : A.pos ≤ n.pos := hsorted n hn
    rw [if_neg htn]
    by_cases hgt : A.pos < n.pos
    · rw [if_neg (by omega : ¬(n.pos = A.pos ∧ n.pos + off ≠ 0)), if_pos hgt]
    · have heq : n.pos = A.pos := by omega
      rw [if_neg hgt]
      by_cases hz : n.pos + off = 0
      · rw [if_neg (by omega : ¬(n.pos = A.pos ∧ n.pos + off ≠ 0)), if_pos hz,
          show n.pos + off = 0 from hz]
      · rw [if_pos ⟨heq, hz⟩, if_neg hz]

/-- Claim C4, witness for the amended theorem: resize A (position 0, length
96, selected) by +5 free ticks with unselected notes at positions 0 and 50
after it: the note at equal position 0 is untouched, the note at position 50
moves to 55, only A's length changes. -/
theorem C4_witness :
    dragNotes Action.resizeNote false 0 0 0 1 5 0 true true
        [⟨0, 96, 60, 100, 0, true, 0, 96, 60⟩,
         ⟨0, 48, 55, 100, 0, false, 0, 48, 55⟩,
         ⟨50, 100, 62, 100, 0, false, 50, 100, 62⟩] =
      [⟨0, 101, 60, 100, 0, true, 0, 96, 60⟩,
       ⟨0, 48, 55, 100, 0, false, 0, 48, 55⟩,
       ⟨55, 100, 62, 100, 0, false, 50, 100, 62⟩] := by
  have h := C4_shift_resize_amended false true 0 0 0 1 5 0 []
    [⟨0, 48, 55, 100, 0, false, 0, 48, 55⟩, ⟨50, 100, 62, 100, 0, false, 50, 100, 62⟩]
    ⟨0, 96, 60, 100, 0, true, 0, 96, 60⟩ 5 (by decide)
    (by decide) (by decide) (by decide) (by decide) (by decide) (by decide)
    (by decide) (by decide) (by decide) (by decide)
  simpa using h

/-- Claim C2, witness: one quantized Moving update of offset `+10` at
granularity 16 on a single selected note at position 0, key 60. -/
theorem C2_witness : noteInBounds ⟨0, 96, 60, 100, 0, true, 0, 96, 60⟩ :=
  C2_clamp_safety false 0 60 60 16 (by decide) [(10, 0, false, false)]
    [⟨0, 96, 60, 100, 0, true, 0, 96, 60⟩] (by decide)
    ⟨0, 96, 60, 100, 0, true, 0, 96, 60⟩ (by decide) (by decide)

end PianoRoll
